import Mathlib

/-!
Verification development for the condensin loop-extrusion simulation modules
(`nucleo.py` and `marcand.py`): landscape construction with the minimum-run
correction, the histogram/distribution builder, the first-passage-time matrix,
the Gillespie reaction selection, the waiting-time clamping, the deterministic
kinetic engine, the initial-placement (`folding`) rule, and the Gamma jump
kernel.  Python float arrays are embedded as `List ℚ` (exact arithmetic), with
infinities modelled explicitly where the code manipulates them; the Gamma
kernel, which evaluates a real special function, is embedded over `ℝ`.
-/

/-- Write value `v` at every index of `a` in the half-open range `[s, e)`;
embeds the numpy slice assignment `a[s:e] = v`. -/
def setRange {α : Type} : List α → ℕ → ℕ → α → List α
  | [], _, _, _ => []
  | x :: xs, s, e, v =>
    (if s = 0 ∧ 0 < e then v else x) :: setRange xs (s - 1) (e - 1) v

/-- Sign-change scan over a boolean mask: emits the `(start, end)` index pairs
of the maximal runs of `true`, exactly as the `np.diff` scan over
`[0] ++ mask ++ [0]` does (a pair starts at each 0→1 change and ends at each
1→0 change, with the two padding zeros closing runs at both borders).
`i` is the index of the head of the remaining list, `st` records the start of
the currently open run, if any. -/
def runsGo : List Bool → ℕ → Option ℕ → List (ℕ × ℕ)
  | [], _, none => []
  | [], i, some s => [(s, i)]
  | b :: rest, i, none =>
    if b then runsGo rest (i + 1) (some i) else runsGo rest (i + 1) none
  | b :: rest, i, some s =>
    if b then runsGo rest (i + 1) (some s) else (s, i) :: runsGo rest (i + 1) none

/-- The `(start, end)` pairs of the maximal runs of `true` in `m`. -/
def runs (m : List Bool) : List (ℕ × ℕ) := runsGo m 0 none

/-- Embeds `binding_length` from both modules: replaces every maximal run of
consecutive `alphaf` values shorter than `bpmin` by `alphao`; run boundaries
are located by the sign-change scan `runs` over the mask `alpha_list == alphaf`
and each short run is overwritten by a slice assignment. -/
def binding_length (alpha_list : List ℚ) (alphao alphaf : ℚ) (bpmin : ℕ) : List ℚ :=
  (runs (alpha_list.map (fun x => decide (x = alphaf)))).foldl
    (fun acc se => if se.2 - se.1 < bpmin then setRange acc se.1 se.2 alphao else acc)
    alpha_list

/-- The base `unit` pattern of `calculate_landscape` in `marcand.py`:
`d*[alphaf] + (rap1_l*[alphao] + [alphaf] + rap1_l*[alphao] + gap*[alphaf])*(N-1)
 + (rap1_l*[alphao] + [alphaf] + rap1_l*[alphao]) + D*[alphaf]`. -/
def marcand_unit (alphaf : ℚ) (d D : ℕ) (alphao : ℚ) (gap rap1_l N : ℕ) : List ℚ :=
  List.replicate d alphaf ++
    (List.replicate (N - 1)
      (List.replicate rap1_l alphao ++ [alphaf] ++ List.replicate rap1_l alphao ++
        List.replicate gap alphaf)).flatten ++
    (List.replicate rap1_l alphao ++ [alphaf] ++ List.replicate rap1_l alphao) ++
    List.replicate D alphaf

/-- One row of the landscape returned by `calculate_landscape` in `marcand.py`
for `alpha_choice = 'array'` (all rows are identical): the `unit` pattern
followed by the minimal-binding-size correction, which the source invokes as
`binding_length(landscape[0], alphaf, alphao, bpmin)` — i.e. passing `alphaf`
in the `alphao` position and `alphao` in the `alphaf` position. -/
def calculate_landscape_array_row (alphaf : ℚ) (d D : ℕ) (alphao : ℚ)
    (gap rap1_l N bpmin : ℕ) : List ℚ :=
  binding_length (marcand_unit alphaf d D alphao gap rap1_l N) alphaf alphao bpmin

/-- Every site equal to `alphaf` lies inside a contiguous run of `alphaf`
sites of length at least `bpmin`: the invariant "after minimum-run-length
correction every maximal permissive run has length ≥ bpmin (or no permissive
site remains)". -/
def min_run_invariant (b : List ℚ) (alphaf : ℚ) (bpmin : ℕ) : Prop :=
  ∀ i : ℕ, b[i]? = some alphaf →
    ∃ s e : ℕ, s ≤ i ∧ i < e ∧ bpmin ≤ e - s ∧
      ∀ j : ℕ, s ≤ j → j < e → b[j]? = some alphaf

/-- Truncation of a rational toward zero; embeds Python's `int(x)` on floats. -/
def int_trunc (q : ℚ) : ℤ := q.num / q.den

/-- Computes `⌊q⌋` as an executable function (`Int.fdiv` is floor division). -/
def ratFloor (q : ℚ) : ℤ := q.num.fdiv q.den

/-- Computes `⌈q⌉` as an executable function. -/
def ratCeil (q : ℚ) : ℤ := -((-q.num).fdiv q.den)

/-- Embeds `np.arange(start, stop, step)` for `step > 0`: the values
`start + k * step` for `0 ≤ k < ⌈(stop - start) / step⌉`. -/
def arange (start stop step : ℚ) : List ℚ :=
  (List.range (ratCeil ((stop - start) / step)).toNat).map (fun k => start + k * step)

/-- Embeds the `np.histogram(data, bins=edges)` bin counts: `counts[j]` is the number of
data points in `[edges[j], edges[j+1])`, except that the last bin also
includes its right edge. -/
def histogram (data : List ℚ) (edges : List ℚ) : List ℕ :=
  (List.range (edges.length - 1)).map (fun j =>
    (data.filter (fun x =>
      decide (edges.getD j 0 ≤ x) &&
        (if j + 2 = edges.length then decide (x ≤ edges.getD (j + 1) 0)
         else decide (x < edges.getD (j + 1) 0)))).length)

/-- The bin-edge array built by `calculate_distribution` in `nucleo.py`:
`np.arange(first_bin, int(last_bin) + bin_width, bin_width)`. -/
def distribution_edges (first_bin last_bin bin_width : ℚ) : List ℚ :=
  arange first_bin ((int_trunc last_bin : ℚ) + bin_width) bin_width

/-- The histogram counts used by `calculate_distribution`. -/
def distribution_counts (data : List ℚ) (first_bin last_bin bin_width : ℚ) : List ℕ :=
  histogram data (distribution_edges first_bin last_bin bin_width)

/-- Embeds `calculate_distribution` from `nucleo.py`: empty data yields empty arrays;
otherwise the histogram counts over the `arange` bin grid are normalized by
their total when that total is positive, and replaced by zeros
(`np.zeros_like`) when no datum fell into any bin.  Returns (bin centers,
normalized distribution). -/
def calculate_distribution (data : List ℚ) (first_bin last_bin bin_width : ℚ) :
    List ℚ × List ℚ :=
  if data = [] then ([], [])
  else
    let edges := distribution_edges first_bin last_bin bin_width
    let counts := distribution_counts data first_bin last_bin bin_width
    let s := counts.sum
    let distrib : List ℚ :=
      if 0 < s then counts.map (fun c : ℕ => (c : ℚ) / (s : ℚ))
      else counts.map (fun _ => (0 : ℚ))
    let points := (List.range (edges.length - 1)).map
      (fun j => (edges.getD j 0 + edges.getD (j + 1) 0) / 2)
    (points, distrib)

/-- Python index resolution for a container of length `n`: non-negative
indices are used as is, negative indices wrap once from the end, anything
further out is an `IndexError` (`none`). -/
def pyIdx (n : ℕ) (i : ℤ) : Option ℕ :=
  if 0 ≤ i ∧ i < n then some i.toNat
  else if i < 0 ∧ 0 ≤ (n : ℤ) + i then some ((n : ℤ) + i).toNat
  else none

/-- Python element access `l[i]`, `none` meaning `IndexError`. -/
def pyGet {α : Type} (l : List α) (i : ℤ) : Option α :=
  match pyIdx l.length i with
  | some k => l[k]?
  | none => none

/-- The index set of the Python slice `a[s:e]` for a container of length `n`:
negative bounds wrap once from the end, then both bounds are clamped to
`[0, n]`. -/
def pySlice (n : ℕ) (s e : ℤ) : List ℕ :=
  let s' : ℕ := if s < 0 then ((n : ℤ) + s).toNat else min s.toNat n
  let e' : ℕ := if e < 0 then ((n : ℤ) + e).toNat else min e.toNat n
  (List.range n).filter (fun c => s' ≤ c ∧ c < e')

/-- The flat `couples` list of `calculate_fpt_matrix`: for every trajectory,
positions are translated by the trajectory's first position and zipped with
the capped integer times `min(floor(t), tmax)`. -/
def fptCouples (matrix_t : List (List ℚ)) (matrix_x : List (List ℤ)) (tmax : ℕ) :
    List (ℤ × ℤ) :=
  (List.zipWith (fun x t =>
      List.zipWith (fun xi ti => (xi - x.headD 0, min (ratFloor ti) (tmax : ℤ))) x t)
    matrix_x matrix_t).flatten

/-- The `(couples[_-1], couples[_])` pairs traversed by the filling loop of
`calculate_fpt_matrix`; at `_ = 0` Python's `couples[-1]` wraps to the last
couple. -/
def fptPairs (couples : List (ℤ × ℤ)) : List ((ℤ × ℤ) × (ℤ × ℤ)) :=
  List.zip (couples.getLastD (0, 0) :: couples.dropLast) couples

/-- One step of the filling loop of `calculate_fpt_matrix`: when the current
translated position is nonzero, increment row `min(floor(t), tmax)` of the
count matrix on the column slice `[prev_x // t_bin, cur_x // t_bin)`. -/
def fptStep (tmax t_bin n_bins : ℕ) (F : ℕ → ℕ → ℕ) (pc : (ℤ × ℤ) × (ℤ × ℤ)) :
    ℕ → ℕ → ℕ :=
  if pc.2.1 ≠ 0 then
    match pyIdx (tmax + 1) pc.2.2 with
    | some r =>
      let cols := pySlice n_bins (Int.fdiv pc.1.1 t_bin) (Int.fdiv pc.2.1 t_bin)
      fun r' c' => if r' = r ∧ c' ∈ cols then F r' c' + 1 else F r' c'
    | none => F
  else F

/-- The number of position bins of `calculate_fpt_matrix`:
`ceil(max(concatenated positions) / t_bin)`. -/
def fptNBins (matrix_x : List (List ℤ)) (t_bin : ℕ) : ℕ :=
  (ratCeil (((matrix_x.flatten.foldr max 0 : ℤ) : ℚ) / (t_bin : ℚ))).toNat

/-- The `(tmax+1) × n_bins` first-passage count matrix of
`calculate_fpt_matrix`, built by the filling loop from the all-zero matrix. -/
def fptCount (matrix_t : List (List ℚ)) (matrix_x : List (List ℤ))
    (tmax t_bin : ℕ) : ℕ → ℕ → ℕ :=
  (fptPairs (fptCouples matrix_t matrix_x tmax)).foldl
    (fptStep tmax t_bin (fptNBins matrix_x t_bin)) (fun _ _ => 0)

/-- Embeds `fpt_number`: the column sums of the count matrix over the `tmax + 1`
time rows. -/
def fptNumber (F : ℕ → ℕ → ℕ) (tmax : ℕ) (j : ℕ) : ℕ :=
  ∑ r ∈ Finset.range (tmax + 1), F r j

/-- The matrix after `np.vstack((fpt_matrix, not_fpt_number))`: the count
matrix with the extra "not yet arrived" row `nt - fpt_number` appended. -/
def fptStacked (F : ℕ → ℕ → ℕ) (nt tmax : ℕ) (r j : ℕ) : ℚ :=
  if r < tmax + 1 then F r j
  else if r = tmax + 1 then (nt : ℚ) - (fptNumber F tmax j : ℚ)
  else 0

/-- Embeds `fpt_results`: the stacked matrix normalized by its column sums. -/
def fptResults (F : ℕ → ℕ → ℕ) (nt tmax : ℕ) (r j : ℕ) : ℚ :=
  fptStacked F nt tmax r j / ∑ r' ∈ Finset.range (tmax + 2), fptStacked F nt tmax r' j

/-- Embeds `calculate_fpt_matrix` from `nucleo.py` (the trajectory count `nt` is
`len(matrix_t)`): returns the normalized density matrix with the extra
"not yet arrived" row, and the per-column arrival counts. -/
def calculate_fpt_matrix (matrix_t : List (List ℚ)) (matrix_x : List (List ℤ))
    (tmax t_bin : ℕ) : (ℕ → ℕ → ℚ) × (ℕ → ℚ) :=
  let F := fptCount matrix_t matrix_x tmax t_bin
  (fptResults F matrix_t.length tmax, fun j => (fptNumber F tmax j : ℚ))

/-- The total propensity of `gillespie_algorithm_one_step` at position `x`:
`beta + np.nansum(p[1:(Lmax-x)] * alpha[(x+1):Lmax])` (the slices clamp at the
ends of the arrays, as in numpy; rationals carry no NaN, so `nansum` is the
plain sum). -/
def r_tot_at (beta : ℚ) (p alpha : List ℚ) (x Lmax : ℕ) : ℚ :=
  beta +
    (List.zipWith (· * ·) ((p.drop 1).take (Lmax - x - 1))
      ((alpha.drop (x + 1)).take (Lmax - x - 1))).sum

/-- The running cumulative propensity of the jump-selection loop after the
term of jump distance `d`: `beta + Σ_{k=1..d} p[k] * alpha[x+k]`
(out-of-range indices read 0). -/
def cumShare (beta : ℚ) (p alpha : List ℚ) (x d : ℕ) : ℚ :=
  beta + ((List.range d).map (fun k => p.getD (k + 1) 0 * alpha.getD (x + k + 1) 0)).sum

/-- The jump-selection loop of `gillespie_algorithm_one_step`:
`while (rp/r_tot) < r0 and (di < Lmax-1-x): di += 1; rp += p[di]*alpha[x+di]`,
returning the final `di`.  The loop increments `di` while it stays below
`Lmax - 1 - x`, so a fuel of `Lmax` always suffices; the guard itself is the
source's, the fuel only drives the recursion. -/
def chooseJumpGo (r_tot r0 : ℚ) (p alpha : List ℚ) (x Lmax : ℕ) :
    ℕ → ℕ → ℚ → ℕ
  | 0, di, _ => di
  | fuel + 1, di, rp =>
    if rp / r_tot < r0 ∧ di < Lmax - 1 - x then
      chooseJumpGo r_tot r0 p alpha x Lmax fuel (di + 1)
        (rp + p.getD (di + 1) 0 * alpha.getD (x + di + 1) 0)
    else di

/-- The reaction selection of one step of `gillespie_algorithm_one_step`
(also the structure of `gillespie_algorithm_in_position` in `marcand.py`):
with uniform variate `r0`, unhook (`none`) when `r0 < beta / r_tot`, else
commit (`some di`) to the jump distance reached by the cumulative loop that
starts at `di = 1` with `rp = beta + p[1] * alpha[x+1]`. -/
def gillespie_choice (beta : ℚ) (p alpha : List ℚ) (x Lmax : ℕ) (r0 : ℚ) : Option ℕ :=
  let r_tot := r_tot_at beta p alpha x Lmax
  if r0 < beta / r_tot then none
  else some (chooseJumpGo r_tot r0 p alpha x Lmax Lmax 1
    (beta + p.getD 1 0 * alpha.getD (x + 1) 0))

/-- A Python float that is either finite (exact rational) or `+inf`; the model
of the simulation times, which the code compares against `np.isinf`. -/
inductive FTime : Type
  | fin (q : ℚ)
  | inf
deriving DecidableEq, Repr

/-- Float addition on times: anything plus infinity is infinity. -/
def FTime.add : FTime → FTime → FTime
  | FTime.fin a, FTime.fin b => FTime.fin (a + b)
  | _, _ => FTime.inf

/-- Embeds `-log(U) / rate` as a float: a positive numerator divided by rate `0`
overflows to `+inf`, and an infinite numerator (`U = 0`) stays infinite. -/
def FTime.divQ : FTime → ℚ → FTime
  | FTime.fin a, r => if r = 0 then FTime.inf else FTime.fin (a / r)
  | FTime.inf, _ => FTime.inf

/-- The finite value of a time, with default 0 for infinity. -/
def FTime.toQ : FTime → ℚ
  | FTime.fin q => q
  | FTime.inf => 0

/-- The sentinel `1e308` used by the clamping code. -/
def bigSentinel : ℚ := 10 ^ 308

/-- Embeds `if np.isinf(t): t = 1e308` applied to `t`. -/
def clampInf : FTime → FTime
  | FTime.inf => FTime.fin bigSentinel
  | t => t

/-- The waiting-time update of `gillespie_algorithm_one_step`
(`t = t - np.log(...)/r_tot; if np.isinf(t): t = 1e308`): the sampled
exponential waiting time `w` is added to the current time and the result is
clamped. -/
def oneStepTimeUpdate (t : ℚ) (w : FTime) : FTime :=
  clampInf (FTime.add (FTime.fin t) w)

/-- The binding sub-event time update of `gillespie_algorithm_two_steps`
exactly as written in the source: after sampling `t_bind`, the code runs
`if np.isinf(t_bind): t = 1e308` — assigning the sentinel to `t`, not to
`t_bind` — and then `t += t_bind`. -/
def twoStepBindTimeUpdate (t : ℚ) (tbind : FTime) : FTime :=
  FTime.add (if tbind = FTime.inf then FTime.fin bigSentinel else FTime.fin t) tbind

/-- The resting sub-event time update of `gillespie_algorithm_two_steps`:
`if np.isinf(t_rest): t_rest = 1e308; t += t_rest`. -/
def twoStepRestTimeUpdate (t : FTime) (trest : FTime) : FTime :=
  FTime.add t (clampInf trest)

/-- The backward scan of `folding`: starting at offset `b`, increment `b`
while `landscape[o - b] != target` (Python indexing, so a run past the left
border wraps once and then raises).  Returns the first offset whose site
equals `target`; `none` models the `IndexError` of an unbounded run.  The
fuel is an upper bound on the number of accessible indices. -/
def scanBack (l : List ℚ) (target : ℚ) (o : ℤ) : ℕ → ℕ → Option ℕ
  | 0, _ => none
  | fuel + 1, b =>
    match pyGet l (o - b) with
    | none => none
    | some v => if v = target then some b else scanBack l target o fuel (b + 1)

/-- Embeds `folding` from both modules, with the `np.random.randint` draw of the
obstacle branch passed in as `r`: origin 0 is returned immediately; an origin
whose landscape value is neither 0 nor 1 is returned unchanged; an origin on a
1 is returned unchanged; an origin on a 0 triggers the backward scan for the
nearest permissive run, inside which a start `r + 1` is sampled. -/
def folding (landscape : List ℚ) (first_origin : ℕ) (r : ℤ) : Option ℤ :=
  if first_origin = 0 then some 0
  else
    match landscape[first_origin]? with
    | none => none
    | some v =>
      if v ≠ 1 ∧ v ≠ 0 then some first_origin
      else if v = 1 then some first_origin
      else
        let fuel := first_origin + landscape.length + 2
        match scanBack landscape 1 first_origin fuel 1 with
        | none => none
        | some b1 =>
          match scanBack landscape 0 ((first_origin : ℤ) - b1) fuel 1 with
          | none => none
          | some _ => some (r + 1)

/-- The per-trajectory event loop of `gillespie_algorithm_one_step` in
`nucleo.py`, de-randomized: `expD n` is the sampled `-log(U)` of step `n`
(infinite when `U = 0`), `uniD n` the uniform variate `r0` of step `n`.
State: remaining fuel, draw counter `n`, time `t`, position `x`, `prev_x`,
fill start `i0`, dense results row, time list, recalibrated position list.
Each pass either breaks or increases `x` by at least 1, so the fuel — chosen
larger than the remaining track — is never exhausted. -/
def oneStepLoop (tmax dt beta : ℚ) (Lmax origin : ℕ) (p alpha_row : List ℚ)
    (expD : ℕ → FTime) (uniD : ℕ → ℚ) (ox : ℤ) :
    ℕ → ℕ → ℚ → ℤ → ℤ → ℕ → List (Option ℚ) → List ℚ → List ℤ →
      List (Option ℚ) × List ℚ × List ℤ
  | 0, _, _, _, _, _, row, tl, xl => (row, tl, xl)
  | fuel + 1, n, t, x, prev_x, i0, row, tl, xl =>
    if t < tmax then
      let r_tot := r_tot_at beta p alpha_row x.toNat Lmax
      let t' := (oneStepTimeUpdate t (FTime.divQ (expD n) r_tot)).toQ
      let r0 := uniD n
      if r0 < beta / r_tot then
        let i : ℤ := ratFloor (t' / dt)
        (setRange row i0 (min (ratFloor (tmax / dt)) i + 1).toNat (some (prev_x : ℚ)), tl, xl)
      else if (Lmax : ℤ) - (origin : ℤ) ≤ x then
        let i : ℤ := ratFloor (t' / dt)
        (setRange row i0 (min (ratFloor (tmax / dt)) i + 1).toNat none, tl, xl)
      else
        let di := chooseJumpGo r_tot r0 p alpha_row x.toNat Lmax Lmax 1
          (beta + p.getD 1 0 * alpha_row.getD (x.toNat + 1) 0)
        let x' := x + di
        let i : ℤ := ratFloor (t' / dt)
        let row' := setRange row i0 (min (ratFloor (tmax / dt)) i + 1).toNat
          (some ((prev_x - ox : ℤ) : ℚ))
        oneStepLoop tmax dt beta Lmax origin p alpha_row expD uniD ox fuel (n + 1)
          t' x' x' (i + 1).toNat row' (tl ++ [t']) (xl ++ [x' - ox])
    else (row, tl, xl)

/-- One trajectory of `gillespie_algorithm_one_step`: resolve the initial
position with `folding` (propagating its failure), initialize the dense row
of length `int(tmax/dt)` with `t = 0` at index 0 and the `(time, position)`
lists with `(0, 0)`, then run the event loop. -/
def oneStepTraj (tmax dt beta : ℚ) (Lmax origin : ℕ) (p alpha_row : List ℚ)
    (expD : ℕ → FTime) (uniD : ℕ → ℚ) (foldD : ℤ) :
    Option (List (Option ℚ) × List ℚ × List ℤ) := do
  let x0 ← folding alpha_row origin foldD
  let row0 := (List.replicate (int_trunc (tmax / dt)).toNat (none : Option ℚ)).set 0
    (some 0)
  let fuel := Lmax + x0.natAbs + origin + 2
  some (oneStepLoop tmax dt beta Lmax origin p alpha_row expD uniD x0 fuel 0
    0 x0 x0 0 row0 [0] [0])

/-- Embeds `gillespie_algorithm_one_step` from `nucleo.py`, de-randomized: the random
draws are supplied as explicit per-trajectory streams (`expDraws k` and
`uniDraws k` for trajectory `k`, `foldDraws k` for its `folding` call), which
is what a fixed seed of the global generator determines.  Returns the dense
results matrix and the per-trajectory time and position series; `none` models
the `IndexError` of a failing initial placement.  `lenght` sizes the constant
`beta_matrix`, whose entries all equal `beta`. -/
def gillespie_algorithm_one_step (nt : ℕ) (tmax dt : ℚ)
    (alpha_matrix : List (List ℚ)) (beta : ℚ) (Lmax lenght origin : ℕ)
    (p : List ℚ) (expDraws : ℕ → ℕ → FTime) (uniDraws : ℕ → ℕ → ℚ)
    (foldDraws : ℕ → ℤ) :
    Option (List (List (Option ℚ)) × List (List ℚ) × List (List ℤ)) := do
  let _ := lenght
  let trajs ← (List.range nt).mapM (fun k =>
    oneStepTraj tmax dt beta Lmax origin p (alpha_matrix.getD k [])
      (expDraws k) (uniDraws k) (foldDraws k))
  some (trajs.map (fun tr => tr.1), trajs.map (fun tr => tr.2.1),
    trajs.map (fun tr => tr.2.2))

/-- Embeds `scipy.stats.gamma.pdf(x, a=a, scale=scale)`:
`x^(a-1) * exp(-x/scale) / (Γ(a) * scale^a)`. -/
noncomputable def gamma_pdf (a scale x : ℝ) : ℝ :=
  x ^ (a - 1) * Real.exp (-x / scale) / (Real.Gamma a * scale ^ a)

/-- Embeds `proba_gamma` from both modules on the spatial support
`L = {0, 1, ..., Lmax-1}`: the Gamma pdf with shape `mu²/θ²` and scale
`θ²/mu` evaluated at `k`, divided by the total pdf mass over the support
(`p_gamma / np.sum(p_gamma)`, with no guard on the divisor). -/
noncomputable def proba_gamma (mu theta : ℝ) (Lmax : ℕ) (k : ℕ) : ℝ :=
  gamma_pdf (mu ^ 2 / theta ^ 2) (theta ^ 2 / mu) k /
    ∑ j ∈ Finset.range Lmax, gamma_pdf (mu ^ 2 / theta ^ 2) (theta ^ 2 / mu) j

/-! ### Properties of the run scan and of `binding_length` -/

/-! ### Properties of the run scan and of `binding_length` -/

theorem setRange_getElem? {α : Type} (v : α) :
    ∀ (a : List α) (s e i : ℕ),
      (setRange a s e v)[i]? =
        if s ≤ i ∧ i < e then (a[i]?).map (fun _ => v) else a[i]? := by
  intro a
  induction a with
  | nil => intro s e i; simp [setRange]
  | cons x xs ih =>
    intro s e i
    cases i with
    | zero =>
      simp only [setRange, List.getElem?_cons_zero, Option.map_some']
      split_ifs with h1 h2 h2 <;> first | rfl | omega
    | succ i =>
      simp only [setRange, List.getElem?_cons_succ, ih (s - 1) (e - 1) i]
      have hiff : (s - 1 ≤ i ∧ i < e - 1) ↔ (s ≤ i + 1 ∧ i + 1 < e) := by omega
      rw [if_congr hiff rfl rfl]

theorem foldAssign_getElem? (o : ℚ) (bp : ℕ) :
    ∀ (L : List (ℕ × ℕ)) (a : List ℚ) (i : ℕ),
      (L.foldl (fun acc se =>
          if se.2 - se.1 < bp then setRange acc se.1 se.2 o else acc) a)[i]? =
        if ∃ se ∈ L, se.2 - se.1 < bp ∧ se.1 ≤ i ∧ i < se.2
        then (a[i]?).map (fun _ => o) else a[i]? := by
  intro L
  induction L with
  | nil => intro a i; simp
  | cons se L' ih =>
    intro a i
    have hcons : (∃ p ∈ se :: L', p.2 - p.1 < bp ∧ p.1 ≤ i ∧ i < p.2) ↔
        ((se.2 - se.1 < bp ∧ se.1 ≤ i ∧ i < se.2) ∨
          ∃ p ∈ L', p.2 - p.1 < bp ∧ p.1 ≤ i ∧ i < p.2) := by
      constructor
      · rintro ⟨p, hp, h⟩
        rcases List.mem_cons.1 hp with rfl | hp'
        · exact Or.inl h
        · exact Or.inr ⟨p, hp', h⟩
      · rintro (h | ⟨p, hp, h⟩)
        · exact ⟨se, List.mem_cons_self se L', h⟩
        · exact ⟨p, List.mem_cons_of_mem se hp, h⟩
    rw [List.foldl_cons, ih, if_congr hcons rfl rfl]
    by_cases hse : se.2 - se.1 < bp
    · rw [if_pos hse]
      simp only [setRange_getElem?]
      by_cases hcov : se.1 ≤ i ∧ i < se.2
      · simp only [if_pos hcov]
        rw [if_pos (Or.inl ⟨hse, hcov⟩)]
        by_cases hmem : ∃ p ∈ L', p.2 - p.1 < bp ∧ p.1 ≤ i ∧ i < p.2
        · rw [if_pos hmem]
          cases a[i]? <;> rfl
        · rw [if_neg hmem]
      · simp only [if_neg hcov]
        by_cases hmem : ∃ p ∈ L', p.2 - p.1 < bp ∧ p.1 ≤ i ∧ i < p.2
        · rw [if_pos hmem, if_pos (Or.inr hmem)]
        · rw [if_neg hmem, if_neg ?_]
          rintro (h | h)
          exacts [hcov h.2, hmem h]
    · rw [if_neg hse]
      by_cases hmem : ∃ p ∈ L', p.2 - p.1 < bp ∧ p.1 ≤ i ∧ i < p.2
      · rw [if_pos hmem, if_pos (Or.inr hmem)]
      · rw [if_neg hmem, if_neg ?_]
        rintro (h | h)
        exacts [hse h.1, hmem h]

theorem binding_length_getElem? (a : List ℚ) (o f : ℚ) (bp : ℕ) (i : ℕ) :
    (binding_length a o f bp)[i]? =
      if ∃ se ∈ runs (a.map (fun x => decide (x = f))),
          se.2 - se.1 < bp ∧ se.1 ≤ i ∧ i < se.2
      then (a[i]?).map (fun _ => o) else a[i]? := by
  unfold binding_length
  exact foldAssign_getElem? o bp _ a i

/-- Soundness of the sign-change scan: every emitted pair is a run of `true`
with `false` (or a border) on both sides.  Stated for a call on the suffix
`m` of the full mask `M`, with the scan state invariants as hypotheses. -/
theorem runsGo_sound (m : List Bool) :
    ∀ (pre : List Bool) (st : Option ℕ) (M : List Bool), M = pre ++ m →
      (st = none → pre.length = 0 ∨ M[pre.length - 1]? = some false) →
      (∀ s, st = some s → s < pre.length ∧
        (∀ j, s ≤ j → j < pre.length → M[j]? = some true) ∧
        (s = 0 ∨ M[s - 1]? = some false)) →
      ∀ se ∈ runsGo m pre.length st,
        se.1 < se.2 ∧ se.2 ≤ M.length ∧
        (∀ j, se.1 ≤ j → j < se.2 → M[j]? = some true) ∧
        (se.1 = 0 ∨ M[se.1 - 1]? = some false) ∧
        (se.2 = M.length ∨ M[se.2]? = some false) := by
  induction m with
  | nil =>
    intro pre st M hM hnone hsome se hse
    cases st with
    | none => simp [runsGo] at hse
    | some s =>
      simp only [runsGo, List.mem_singleton] at hse
      subst hse
      obtain ⟨hs, hint, hleft⟩ := hsome s rfl
      have hlen : M.length = pre.length := by simp [hM]
      exact ⟨hs, hlen.ge, fun j h1 h2 => hint j h1 h2, hleft, Or.inl hlen.symm⟩
  | cons b rest ih =>
    intro pre st M hM hnone hsome se hse
    have hMb : M[pre.length]? = some b := by
      rw [hM, List.getElem?_append]
      simp
    cases b with
    | true =>
      have hMr : M = (pre ++ [true]) ++ rest := by simp [hM]
      have hlenr : (pre ++ [true]).length = pre.length + 1 := by simp
      cases st with
      | none =>
        simp only [runsGo, if_pos] at hse
        refine ih (pre ++ [true]) (some pre.length) M hMr (by simp) ?_ se
          (by rw [hlenr]; exact hse)
        intro s hs
        injection hs with hs
        subst hs
        rw [hlenr]
        refine ⟨by omega, ?_, hnone rfl⟩
        intro j h1 h2
        have hj : j = pre.length := by omega
        subst hj
        exact hMb
      | some s =>
        obtain ⟨hs, hint, hleft⟩ := hsome s rfl
        simp only [runsGo, if_pos] at hse
        refine ih (pre ++ [true]) (some s) M hMr (by simp) ?_ se
          (by rw [hlenr]; exact hse)
        intro s' hs'
        injection hs' with hs'
        subst hs'
        rw [hlenr]
        refine ⟨by omega, ?_, hleft⟩
        intro j h1 h2
        rcases Nat.lt_or_ge j pre.length with h | h
        · exact hint j h1 h
        · have hj : j = pre.length := by omega
          subst hj
          exact hMb
    | false =>
      have hMr : M = (pre ++ [false]) ++ rest := by simp [hM]
      have hlenr : (pre ++ [false]).length = pre.length + 1 := by simp
      cases st with
      | none =>
        simp only [runsGo, Bool.false_eq_true, if_neg] at hse
        refine ih (pre ++ [false]) none M hMr ?_ (by simp) se
          (by rw [hlenr]; exact hse)
        intro _
        rw [hlenr]
        exact Or.inr (by simpa using hMb)
      | some s =>
        obtain ⟨hs, hint, hleft⟩ := hsome s rfl
        simp only [runsGo, Bool.false_eq_true, if_neg] at hse
        rcases List.mem_cons.1 hse with heq | hse'
        · subst heq
          have hlenM : pre.length ≤ M.length := by
            rw [hM]
            simp only [List.length_append, List.length_cons]
            omega
          exact ⟨hs, hlenM, fun j h1 h2 => hint j h1 h2, hleft, Or.inr hMb⟩
        · refine ih (pre ++ [false]) none M hMr ?_ (by simp) se
            (by rw [hlenr]; exact hse')
          intro _
          rw [hlenr]
          exact Or.inr (by simpa using hMb)

/-- Completeness of the sign-change scan: every `true` site of the remaining
suffix (and every site covered by the open run) is covered by an emitted
pair. -/
theorem runsGo_cover (m : List Bool) :
    ∀ (pre : List Bool) (st : Option ℕ) (M : List Bool), M = pre ++ m →
      (∀ s, st = some s → s < pre.length) →
      ∀ j : ℕ,
        ((pre.length ≤ j ∧ M[j]? = some true) ∨
          (∃ s, st = some s ∧ s ≤ j ∧ j < pre.length)) →
        ∃ se ∈ runsGo m pre.length st, se.1 ≤ j ∧ j < se.2 := by
  induction m with
  | nil =>
    intro pre st M hM hsome j hj
    cases st with
    | none =>
      rcases hj with ⟨h1, h2⟩ | ⟨s, hs, _⟩
      · rw [hM, List.getElem?_eq_none (by simpa using h1)] at h2
        exact absurd h2 (by simp)
      · exact absurd hs (by simp)
    | some s =>
      rcases hj with ⟨h1, h2⟩ | ⟨s', hs', h3, h4⟩
      · rw [hM, List.getElem?_eq_none (by simpa using h1)] at h2
        exact absurd h2 (by simp)
      · injection hs' with hs'
        subst hs'
        exact ⟨(s, pre.length), by simp [runsGo], h3, h4⟩
  | cons b rest ih =>
    intro pre st M hM hsome j hj
    have hMb : M[pre.length]? = some b := by
      rw [hM, List.getElem?_append]
      simp
    cases b with
    | true =>
      have hMr : M = (pre ++ [true]) ++ rest := by simp [hM]
      have hlenr : (pre ++ [true]).length = pre.length + 1 := by simp
      cases st with
      | none =>
        simp only [runsGo, if_pos]
        have hres := ih (pre ++ [true]) (some pre.length) M hMr
          (by rw [hlenr]; rintro s' hs'; injection hs' with hs'; omega) j ?_
        · rw [hlenr] at hres; exact hres
        · rw [hlenr]
          rcases hj with ⟨h1, h2⟩ | ⟨s, hs, _⟩
          · rcases Nat.eq_or_lt_of_le h1 with heq | h
            · exact Or.inr ⟨pre.length, rfl, by omega, by omega⟩
            · exact Or.inl ⟨by omega, h2⟩
          · exact absurd hs (by simp)
      | some s =>
        have hslt : s < pre.length := hsome s rfl
        simp only [runsGo, if_pos]
        have hres := ih (pre ++ [true]) (some s) M hMr
          (by rw [hlenr]; rintro s' hs'; injection hs' with hs'; omega) j ?_
        · rw [hlenr] at hres; exact hres
        · rw [hlenr]
          rcases hj with ⟨h1, h2⟩ | ⟨s', hs', h3, h4⟩
          · rcases Nat.eq_or_lt_of_le h1 with heq | h
            · exact Or.inr ⟨s, rfl, by omega, by omega⟩
            · exact Or.inl ⟨by omega, h2⟩
          · injection hs' with hs'
            subst hs'
            exact Or.inr ⟨s, rfl, h3, by omega⟩
    | false =>
      have hMr : M = (pre ++ [false]) ++ rest := by simp [hM]
      have hlenr : (pre ++ [false]).length = pre.length + 1 := by simp
      cases st with
      | none =>
        simp only [runsGo, Bool.false_eq_true, if_neg]
        have hres := ih (pre ++ [false]) none M hMr (by simp) j ?_
        · rw [hlenr] at hres; exact hres
        · rw [hlenr]
          rcases hj with ⟨h1, h2⟩ | ⟨s, hs, _⟩
          · rcases Nat.eq_or_lt_of_le h1 with heq | h
            · rw [← heq, hMb] at h2
              exact absurd h2 (by simp)
            · exact Or.inl ⟨by omega, h2⟩
          · exact absurd hs (by simp)
      | some s =>
        simp only [runsGo, Bool.false_eq_true, if_neg]
        rcases hj with ⟨h1, h2⟩ | ⟨s', hs', h3, h4⟩
        · rcases Nat.eq_or_lt_of_le h1 with heq | h
          · rw [← heq, hMb] at h2
            exact absurd h2 (by simp)
          · obtain ⟨se, hmem, hc1, hc2⟩ := ih (pre ++ [false]) none M hMr (by simp) j
              (by rw [hlenr]; exact Or.inl ⟨by omega, h2⟩)
            rw [hlenr] at hmem
            exact ⟨se, List.mem_cons_of_mem _ hmem, hc1, hc2⟩
        · injection hs' with hs'
          subst hs'
          exact ⟨(s, pre.length), List.mem_cons_self _ _, h3, h4⟩

theorem runs_sound (M : List Bool) :
    ∀ se ∈ runs M,
      se.1 < se.2 ∧ se.2 ≤ M.length ∧
      (∀ j, se.1 ≤ j → j < se.2 → M[j]? = some true) ∧
      (se.1 = 0 ∨ M[se.1 - 1]? = some false) ∧
      (se.2 = M.length ∨ M[se.2]? = some false) := by
  have h := runsGo_sound M [] none M (by simp) (fun _ => Or.inl rfl)
    (fun s hs => by simp at hs)
  simpa [runs] using h

theorem runs_cover (M : List Bool) (j : ℕ) (h : M[j]? = some true) :
    ∃ se ∈ runs M, se.1 ≤ j ∧ j < se.2 := by
  have hres := runsGo_cover M [] none M (by simp) (by simp) j
    (Or.inl ⟨Nat.zero_le j, h⟩)
  simpa [runs] using hres

/-- Two runs that share a site are the same run. -/
theorem runs_overlap_eq (M : List Bool) (se se' : ℕ × ℕ)
    (h : se ∈ runs M) (h' : se' ∈ runs M) (j : ℕ)
    (hj1 : se.1 ≤ j) (hj2 : j < se.2) (hj1' : se'.1 ≤ j) (hj2' : j < se'.2) :
    se = se' := by
  obtain ⟨hlt, hle, hint, hleft, hright⟩ := runs_sound M se h
  obtain ⟨hlt', hle', hint', hleft', hright'⟩ := runs_sound M se' h'
  have h1 : se.1 = se'.1 := by
    rcases Nat.lt_trichotomy se.1 se'.1 with hc | hc | hc
    · rcases hleft' with h0 | hf
      · omega
      · have ht := hint (se'.1 - 1) (by omega) (by omega)
        rw [ht] at hf
        exact absurd hf (by simp)
    · exact hc
    · rcases hleft with h0 | hf
      · omega
      · have ht := hint' (se.1 - 1) (by omega) (by omega)
        rw [ht] at hf
        exact absurd hf (by simp)
  have h2 : se.2 = se'.2 := by
    rcases Nat.lt_trichotomy se.2 se'.2 with hc | hc | hc
    · have htrue := hint' se.2 (by omega) hc
      rcases hright with h0 | hf
      · rw [List.getElem?_eq_none (by omega)] at htrue
        exact absurd htrue (by simp)
      · rw [htrue] at hf
        exact absurd hf (by simp)
    · exact hc
    · have htrue := hint se'.2 (by omega) hc
      rcases hright' with h0 | hf
      · rw [List.getElem?_eq_none (by omega)] at htrue
        exact absurd htrue (by simp)
      · rw [htrue] at hf
        exact absurd hf (by simp)
  exact Prod.ext h1 h2

theorem mask_getElem?_true (a : List ℚ) (f : ℚ) (j : ℕ) :
    (a.map (fun x => decide (x = f)))[j]? = some true ↔ a[j]? = some f := by
  rw [List.getElem?_map]
  cases h : a[j]? with
  | none => simp
  | some x => simp [decide_eq_true_eq]

/-- After one `binding_length` pass with distinct values, every remaining
`alphaf` site lies inside an `alphaf` run of length at least `bpmin`. -/
theorem binding_length_min_run (a : List ℚ) (o f : ℚ) (bp : ℕ) (hne : o ≠ f) :
    min_run_invariant (binding_length a o f bp) f bp := by
  intro i hi
  rw [binding_length_getElem?] at hi
  split_ifs at hi with hcov
  · cases h : a[i]? with
    | none => rw [h] at hi; exact absurd hi (by simp)
    | some x =>
      rw [h] at hi
      simp only [Option.map_some'] at hi
      injection hi with hi
      exact absurd hi hne
  · have hmask : (a.map (fun x => decide (x = f)))[i]? = some true :=
      (mask_getElem?_true a f i).2 hi
    obtain ⟨se, hmem, h1, h2⟩ := runs_cover _ i hmask
    obtain ⟨hlt, hle, hint, hleft, hright⟩ := runs_sound _ se hmem
    have hnotshort : ¬ se.2 - se.1 < bp := fun hs => hcov ⟨se, hmem, hs, h1, h2⟩
    refine ⟨se.1, se.2, h1, h2, by omega, ?_⟩
    intro j hj1 hj2
    rw [binding_length_getElem?, if_neg ?_]
    · exact (mask_getElem?_true a f j).1 (hint j hj1 hj2)
    · rintro ⟨se', hmem', hshort', hc1, hc2⟩
      have heq : se = se' := runs_overlap_eq _ se se' hmem hmem' j hj1 hj2 hc1 hc2
      subst heq
      exact hnotshort hshort'
/-! ### Claims C1, C2, C10 -/

/-- C1: the claim states that every landscape produced by the generators
satisfies the minimum-run invariant for `alphaf` runs.  `marcand.py`'s
`calculate_landscape` (modes `'array'`/`'LacI'`) calls
`binding_length(landscape[0], alphaf, alphao, bpmin)` with the `alphao` and
`alphaf` arguments transposed, so short *obstacle* runs are replaced by
`alphaf` and short `alphaf` runs survive: with `alphaf = 1`, `alphao = 0`,
`d = D = 2`, `gap = 3`, `rap1_l = 3`, `N = 2`, `bpmin = 3`, the produced row
keeps the isolated `alphaf` site between the two obstacle blocks (index 5), a
maximal permissive run of length 1 < 3. -/
theorem claim_C1_marcand_landscape_violates_min_run :
    ¬ min_run_invariant (calculate_landscape_array_row 1 2 2 0 3 3 2 3) 1 3 := by
  intro h
  obtain ⟨s, e, hs, he, hlen, hall⟩ := h 5 (by decide)
  have h4 : ¬ ((calculate_landscape_array_row 1 2 2 0 3 3 2 3)[4]? = some 1) := by
    decide
  have h6 : ¬ ((calculate_landscape_array_row 1 2 2 0 3 3 2 3)[6]? = some 1) := by
    decide
  rcases Nat.lt_or_ge s 5 with hc | hc
  · exact h4 (hall 4 (by omega) (by omega))
  · exact h6 (hall 6 (by omega) (by omega))

/-- C2: `binding_length` on `[1,1,0,0,1,1,1,0,1,0,0]` with `alphao = 0`,
`alphaf = 1`, `bpmin = 3` converts the free runs of lengths 2 and 1 to
obstacle and keeps the run of length 3. -/
theorem claim_C2_binding_length_example :
    binding_length [1, 1, 0, 0, 1, 1, 1, 0, 1, 0, 0] 0 1 3 =
      [0, 0, 0, 0, 1, 1, 1, 0, 0, 0, 0] := by decide

/-- C10: `binding_length` is idempotent for distinct `alphao ≠ alphaf`:
after one pass every remaining maximal `alphaf` run has length at least
`bpmin`, so a second pass replaces nothing. -/
theorem claim_C10_binding_length_idempotent (a : List ℚ) (alphao alphaf : ℚ)
    (bpmin : ℕ) (hne : alphao ≠ alphaf) :
    binding_length (binding_length a alphao alphaf bpmin) alphao alphaf bpmin =
      binding_length a alphao alphaf bpmin := by
  apply List.ext_getElem?
  intro i
  rw [binding_length_getElem?, if_neg ?_]
  rintro ⟨se, hmem, hshort, h1, h2⟩
  obtain ⟨hlt, hle, hint, hleft, hright⟩ := runs_sound _ se hmem
  have hbf : (binding_length a alphao alphaf bpmin)[se.1]? = some alphaf :=
    (mask_getElem?_true _ alphaf se.1).1 (hint se.1 le_rfl hlt)
  obtain ⟨s', e', hs1, hs2, hlen', hall'⟩ :=
    binding_length_min_run a alphao alphaf bpmin hne se.1 hbf
  have hss : se.1 ≤ s' := by
    by_contra hc
    push_neg at hc
    have hf : (binding_length a alphao alphaf bpmin)[se.1 - 1]? = some alphaf :=
      hall' (se.1 - 1) (by omega) (by omega)
    have hm := (mask_getElem?_true _ alphaf (se.1 - 1)).2 hf
    rcases hleft with h0 | hfalse
    · omega
    · rw [hm] at hfalse
      exact absurd hfalse (by simp)
  have hee : e' ≤ se.2 := by
    by_contra hc
    push_neg at hc
    have hf : (binding_length a alphao alphaf bpmin)[se.2]? = some alphaf :=
      hall' se.2 (by omega) (by omega)
    have hm := (mask_getElem?_true _ alphaf se.2).2 hf
    rcases hright with h0 | hfalse
    · rw [List.getElem?_eq_none (by simp at h0 ⊢; omega)] at hm
      exact absurd hm (by simp)
    · rw [hm] at hfalse
      exact absurd hfalse (by simp)
  omega

/-- C10 witness. -/
theorem claim_C10_witness :
    (0 : ℚ) ≠ 1 ∧
      binding_length (binding_length [1, 1, 0, 0, 1, 1, 1, 0, 1, 0, 0] 0 1 3) 0 1 3 =
        binding_length [1, 1, 0, 0, 1, 1, 1, 0, 1, 0, 0] 0 1 3 :=
  ⟨by decide, claim_C10_binding_length_idempotent [1, 1, 0, 0, 1, 1, 1, 0, 1, 0, 0]
    0 1 3 (by decide)⟩

/-! ### Claim C3 -/

theorem sum_map_div_nat (l : List ℕ) (s : ℚ) :
    (l.map (fun c : ℕ => (c : ℚ) / s)).sum = (l.sum : ℚ) / s := by
  induction l with
  | nil => simp
  | cons x xs ih =>
    rw [List.map_cons, List.sum_cons, ih, List.sum_cons, Nat.cast_add, add_div]

theorem histogram_nil_sum (edges : List ℚ) : (histogram [] edges).sum = 0 := by
  simp [histogram]

/-- C3 counterexample: the input `[100]` is non-empty, yet with bins
`[0, 10]` of width 1 no datum falls into any bin, so the returned distribution
is all zeros and sums to 0, not 1. -/
theorem claim_C3_counterexample :
    ((100 : ℚ) :: []) ≠ [] ∧
      ((calculate_distribution [100] 0 10 1).2).sum ≠ 1 := by
  constructor
  · simp
  · with_unfolding_all decide

/-- C3 amended: empty data yields the pair of empty arrays; when at least one
datum falls into a bin (positive counts total) the distribution sums to
exactly 1; when no datum falls into any bin — which can also happen for
non-empty data lying outside the bin range — every entry of the distribution
is 0.  No division by zero (hence no NaN) ever occurs. -/
theorem claim_C3_distribution_normalization (data : List ℚ)
    (first_bin last_bin bin_width : ℚ) :
    (data = [] → calculate_distribution data first_bin last_bin bin_width = ([], [])) ∧
    (0 < (distribution_counts data first_bin last_bin bin_width).sum →
      ((calculate_distribution data first_bin last_bin bin_width).2).sum = 1) ∧
    ((distribution_counts data first_bin last_bin bin_width).sum = 0 →
      ∀ q ∈ (calculate_distribution data first_bin last_bin bin_width).2, q = 0) := by
  refine ⟨fun h => by simp [calculate_distribution, h], ?_, ?_⟩
  · intro hpos
    have hne : data ≠ [] := by
      intro h
      subst h
      rw [distribution_counts, histogram_nil_sum] at hpos
      exact absurd hpos (by simp)
    simp only [calculate_distribution, if_neg hne, if_pos hpos]
    rw [sum_map_div_nat, div_self]
    exact Nat.cast_ne_zero.2 (by omega)
  · intro hz
    by_cases h : data = []
    · simp [calculate_distribution, h]
    · simp only [calculate_distribution, if_neg h, if_neg (by omega : ¬ 0 < (distribution_counts data first_bin last_bin bin_width).sum)]
      intro q hq
      obtain ⟨c, _, rfl⟩ := List.mem_map.1 hq
      rfl

/-- C3 witness for the amended theorem: data `[2]` with bins `[0,10]` falls in
a bin, and the distribution sums to 1. -/
theorem claim_C3_witness :
    (0 < (distribution_counts [2] 0 10 1).sum) ∧
      ((calculate_distribution [2] 0 10 1).2).sum = 1 :=
  ⟨by with_unfolding_all decide,
    (claim_C3_distribution_normalization [2] 0 10 1).2.1 (by with_unfolding_all decide)⟩

/-! ### Claim C4 -/

/-- C4: in the count matrix of `calculate_fpt_matrix`, after stacking the
extra "not yet arrived" row, every column sums to exactly `nt = len(matrix_t)`
— the stacked entry is `nt` minus the column sum of the counts, so the total
is `nt` by construction — and consequently every column of the normalized
`fpt_results` sums to 1 whenever there is at least one trajectory. -/
theorem claim_C4_fpt_columns (matrix_t : List (List ℚ)) (matrix_x : List (List ℤ))
    (tmax t_bin : ℕ) (j : ℕ) :
    (∑ r ∈ Finset.range (tmax + 2),
        fptStacked (fptCount matrix_t matrix_x tmax t_bin) matrix_t.length tmax r j) =
      matrix_t.length ∧
    (0 < matrix_t.length →
      (∑ r ∈ Finset.range (tmax + 2),
          (calculate_fpt_matrix matrix_t matrix_x tmax t_bin).1 r j) = 1) := by
  have hcol : (∑ r ∈ Finset.range (tmax + 2),
      fptStacked (fptCount matrix_t matrix_x tmax t_bin) matrix_t.length tmax r j) =
      matrix_t.length := by
    rw [Finset.sum_range_succ]
    have h1 : (∑ r ∈ Finset.range (tmax + 1),
        fptStacked (fptCount matrix_t matrix_x tmax t_bin) matrix_t.length tmax r j) =
        ((fptNumber (fptCount matrix_t matrix_x tmax t_bin) tmax j : ℕ) : ℚ) := by
      rw [fptNumber, Nat.cast_sum]
      refine Finset.sum_congr rfl ?_
      intro r hr
      simp [fptStacked, Finset.mem_range.1 hr]
    rw [h1]
    simp [fptStacked]
  refine ⟨hcol, ?_⟩
  intro hnt
  show (∑ r ∈ Finset.range (tmax + 2),
      fptResults (fptCount matrix_t matrix_x tmax t_bin) matrix_t.length tmax r j) = 1
  unfold fptResults
  rw [← Finset.sum_div, hcol]
  exact div_self (Nat.cast_ne_zero.2 (by omega))

/-- C4 witness. -/
theorem claim_C4_witness :
    0 < ([[(0 : ℚ), 1]] : List (List ℚ)).length ∧
      (∑ r ∈ Finset.range 3,
          (calculate_fpt_matrix [[(0 : ℚ), 1]] [[(0 : ℤ), 2]] 1 1).1 r 0) = 1 :=
  ⟨by decide, (claim_C4_fpt_columns [[(0 : ℚ), 1]] [[(0 : ℤ), 2]] 1 1 0).2 (by decide)⟩

/-! ### Claim C5 -/

theorem gillespie_choice_eq (beta : ℚ) (p alpha : List ℚ) (x Lmax : ℕ) (r0 : ℚ) :
    gillespie_choice beta p alpha x Lmax r0 =
      if r0 < beta / r_tot_at beta p alpha x Lmax then none
      else some (chooseJumpGo (r_tot_at beta p alpha x Lmax) r0 p alpha x Lmax Lmax 1
        (beta + p.getD 1 0 * alpha.getD (x + 1) 0)) := rfl

theorem cumShare_one (beta : ℚ) (p alpha : List ℚ) (x : ℕ) :
    cumShare beta p alpha x 1 = beta + p.getD 1 0 * alpha.getD (x + 1) 0 := by
  simp [cumShare, show List.range 1 = [0] from rfl]

theorem cumShare_succ (beta : ℚ) (p alpha : List ℚ) (x d : ℕ) :
    cumShare beta p alpha x (d + 1) =
      cumShare beta p alpha x d + p.getD (d + 1) 0 * alpha.getD (x + d + 1) 0 := by
  unfold cumShare
  rw [List.range_succ, List.map_append, List.sum_append]
  simp [add_assoc]

theorem zip_slice_sum :
    ∀ (n : ℕ) (p alpha : List ℚ) (x : ℕ), n + 1 ≤ p.length →
      x + 1 + n ≤ alpha.length →
      (List.zipWith (· * ·) ((p.drop 1).take n) ((alpha.drop (x + 1)).take n)).sum =
        ((List.range n).map (fun k => p.getD (k + 1) 0 * alpha.getD (x + k + 1) 0)).sum := by
  intro n
  induction n with
  | zero => intro p alpha x h1 h2; simp
  | succ n ih =>
    intro p alpha x h1 h2
    have hp1 : (p.drop 1).take (n + 1) = (p.drop 1).take n ++ [p.getD (n + 1) 0] := by
      rw [List.take_succ]
      congr 1
      have hget : (p.drop 1)[n]? = some (p.getD (n + 1) 0) := by
        rw [List.getElem?_drop, show 1 + n = n + 1 by omega,
          List.getElem?_eq_getElem (by omega : n + 1 < p.length),
          List.getD_eq_getElem _ _ (by omega : n + 1 < p.length)]
      rw [hget]
      rfl
    have ha1 : (alpha.drop (x + 1)).take (n + 1) =
        (alpha.drop (x + 1)).take n ++ [alpha.getD (x + n + 1) 0] := by
      rw [List.take_succ]
      congr 1
      have hget : (alpha.drop (x + 1))[n]? = some (alpha.getD (x + n + 1) 0) := by
        rw [List.getElem?_drop, show x + 1 + n = x + n + 1 by omega,
          List.getElem?_eq_getElem (by omega : x + n + 1 < alpha.length),
          List.getD_eq_getElem _ _ (by omega : x + n + 1 < alpha.length)]
      rw [hget]
      rfl
    have hlen : ((p.drop 1).take n).length = ((alpha.drop (x + 1)).take n).length := by
      rw [List.length_take, List.length_take, List.length_drop, List.length_drop]
      omega
    rw [hp1, ha1, List.zipWith_append _ _ _ _ _ hlen, List.sum_append,
      ih p alpha x (by omega) (by omega), List.range_succ, List.map_append,
      List.sum_append]
    simp

theorem r_tot_at_eq_cumShare (beta : ℚ) (p alpha : List ℚ) (x Lmax : ℕ)
    (hp : p.length = Lmax) (ha : alpha.length = Lmax) (hx : x + 1 ≤ Lmax) :
    r_tot_at beta p alpha x Lmax = cumShare beta p alpha x (Lmax - 1 - x) := by
  unfold r_tot_at cumShare
  congr 1
  have hn : Lmax - x - 1 = Lmax - 1 - x := by omega
  rw [hn]
  exact zip_slice_sum (Lmax - 1 - x) p alpha x (by omega) (by omega)

/-- The jump-selection loop commits to the smallest `di ≥ 1` whose cumulative
share reaches the variate, provided the variate is below 1 and the loop is
given enough fuel: the `di < Lmax - 1 - x` guard never forces an early exit
because the cumulative share at the last admissible distance is the full
`r_tot`. -/
theorem chooseJumpGo_spec (beta r_tot r0 : ℚ) (p alpha : List ℚ) (x Lmax : ℕ)
    (hrt : r_tot ≠ 0) (hr1 : r0 < 1)
    (hfull : cumShare beta p alpha x (Lmax - 1 - x) = r_tot) :
    ∀ (fuel di : ℕ) (rp : ℚ), Lmax - 1 - x ≤ fuel + di → 1 ≤ di →
      di ≤ Lmax - 1 - x → rp = cumShare beta p alpha x di →
      (∀ d', 1 ≤ d' → d' < di → cumShare beta p alpha x d' / r_tot < r0) →
      1 ≤ chooseJumpGo r_tot r0 p alpha x Lmax fuel di rp ∧
        chooseJumpGo r_tot r0 p alpha x Lmax fuel di rp ≤ Lmax - 1 - x ∧
        r0 ≤ cumShare beta p alpha x
          (chooseJumpGo r_tot r0 p alpha x Lmax fuel di rp) / r_tot ∧
        ∀ d', 1 ≤ d' → d' < chooseJumpGo r_tot r0 p alpha x Lmax fuel di rp →
          cumShare beta p alpha x d' / r_tot < r0 := by
  intro fuel
  induction fuel with
  | zero =>
    intro di rp hk h1 hD hrp hprev
    have hdi : di = Lmax - 1 - x := by omega
    simp only [chooseJumpGo]
    refine ⟨h1, hD, ?_, hprev⟩
    rw [hdi, hfull, div_self hrt]
    exact le_of_lt hr1
  | succ fuel ih =>
    intro di rp hk h1 hD hrp hprev
    rw [chooseJumpGo]
    by_cases hc : rp / r_tot < r0 ∧ di < Lmax - 1 - x
    · rw [if_pos hc]
      refine ih (di + 1) _ (by omega) (by omega) (by omega) ?_ ?_
      · rw [hrp, cumShare_succ]
      · intro d' hd1 hd2
        rcases Nat.lt_or_ge d' di with h | h
        · exact hprev d' hd1 h
        · have hdd : d' = di := by omega
          subst hdd
          rw [← hrp]
          exact hc.1
    · rw [if_neg hc]
      refine ⟨h1, hD, ?_, hprev⟩
      by_cases hA : rp / r_tot < r0
      · have hdi : di = Lmax - 1 - x := by
          rcases Nat.lt_or_ge di (Lmax - 1 - x) with hlt | hge
          · exact absurd ⟨hA, hlt⟩ hc
          · omega
        rw [hrp, hdi, hfull, div_self hrt] at hA
        exact absurd hA (by linarith)
      · push_neg at hA
        rw [hrp] at hA
        exact hA

/-- C5 counterexample: at the exact boundary `r0 = beta / r_tot` the code
does *not* fire the stall: with `beta = 1`, `p = [0, 1]`, `alpha = [1, 1]`,
`x = 0`, `Lmax = 2`, the total propensity is 2 and the boundary is `1/2`;
drawn variate `r0 = 1/2` commits to the jump `di = 1` instead of unhooking. -/
theorem claim_C5_counterexample :
    (1 : ℚ) / 2 = 1 / r_tot_at 1 [0, 1] [1, 1] 0 2 ∧
      gillespie_choice 1 [0, 1] [1, 1] 0 2 (1 / 2) = some 1 := by
  constructor
  · with_unfolding_all decide
  · with_unfolding_all decide

/-- C5 amended: the stall fires exactly when the variate is *strictly* below
`beta / r_tot` — at exact equality the jump branch is taken, not the stall;
in the jump branch (with positive total propensity and variate below 1) the
committed jump distance is the smallest `di ≥ 1` whose running cumulative
propensity share is at least the variate. -/
theorem claim_C5_selection (beta : ℚ) (p alpha : List ℚ) (x Lmax : ℕ) (r0 : ℚ)
    (hp : p.length = Lmax) (ha : alpha.length = Lmax) (hx : x + 1 < Lmax)
    (hrt : 0 < r_tot_at beta p alpha x Lmax) (hr0 : r0 < 1) :
    (gillespie_choice beta p alpha x Lmax r0 = none ↔
      r0 < beta / r_tot_at beta p alpha x Lmax) ∧
    (¬ r0 < beta / r_tot_at beta p alpha x Lmax →
      ∃ di, gillespie_choice beta p alpha x Lmax r0 = some di ∧ 1 ≤ di ∧
        r0 ≤ cumShare beta p alpha x di / r_tot_at beta p alpha x Lmax ∧
        ∀ d', 1 ≤ d' → d' < di →
          cumShare beta p alpha x d' / r_tot_at beta p alpha x Lmax < r0) := by
  have hfull : cumShare beta p alpha x (Lmax - 1 - x) = r_tot_at beta p alpha x Lmax :=
    (r_tot_at_eq_cumShare beta p alpha x Lmax hp ha (by omega)).symm
  constructor
  · rw [gillespie_choice_eq]
    by_cases h : r0 < beta / r_tot_at beta p alpha x Lmax
    · simp [h]
    · simp [h]
  · intro h
    have hspec := chooseJumpGo_spec beta (r_tot_at beta p alpha x Lmax) r0 p alpha x
      Lmax (ne_of_gt hrt) hr0 hfull Lmax 1
      (beta + p.getD 1 0 * alpha.getD (x + 1) 0)
      (by omega) le_rfl (by omega) (cumShare_one beta p alpha x).symm
      (by intro d' h1 h2; omega)
    refine ⟨chooseJumpGo (r_tot_at beta p alpha x Lmax) r0 p alpha x Lmax Lmax 1
      (beta + p.getD 1 0 * alpha.getD (x + 1) 0), ?_, hspec.1, hspec.2.2.1,
      hspec.2.2.2⟩
    rw [gillespie_choice_eq, if_neg h]

/-- C5 witness for the amended theorem. -/
theorem claim_C5_witness :
    0 < r_tot_at 1 [0, 1, 1] [1, 1, 1] 0 3 ∧
      ((gillespie_choice 1 [0, 1, 1] [1, 1, 1] 0 3 (2 / 3) = none ↔
          (2 / 3 : ℚ) < 1 / r_tot_at 1 [0, 1, 1] [1, 1, 1] 0 3) ∧
        (¬ (2 / 3 : ℚ) < 1 / r_tot_at 1 [0, 1, 1] [1, 1, 1] 0 3 →
          ∃ di, gillespie_choice 1 [0, 1, 1] [1, 1, 1] 0 3 (2 / 3) = some di ∧
            1 ≤ di ∧
            (2 / 3 : ℚ) ≤ cumShare 1 [0, 1, 1] [1, 1, 1] 0 di /
              r_tot_at 1 [0, 1, 1] [1, 1, 1] 0 3 ∧
            ∀ d', 1 ≤ d' → d' < di →
              cumShare 1 [0, 1, 1] [1, 1, 1] 0 d' /
                r_tot_at 1 [0, 1, 1] [1, 1, 1] 0 3 < 2 / 3)) :=
  ⟨by with_unfolding_all decide,
    claim_C5_selection 1 [0, 1, 1] [1, 1, 1] 0 3 (2 / 3) (by decide) (by decide)
      (by decide) (by with_unfolding_all decide) (by with_unfolding_all decide)⟩

/-! ### Claim C7 -/

/-- C7 (code bug): in the two-step engine's binding sub-event the clamp
`if np.isinf(t_bind): t = 1e308` assigns the sentinel to `t` instead of
`t_bind`, and the following `t += t_bind` makes the recorded time infinite;
by contrast, the single-step engine's clamp (applied after the addition)
does keep the time finite. -/
theorem claim_C7_infinite_bind_time_leaks :
    twoStepBindTimeUpdate 0 FTime.inf = FTime.inf ∧
      oneStepTimeUpdate 0 FTime.inf = FTime.fin bigSentinel :=
  ⟨rfl, rfl⟩

/-! ### Claim C8 -/

/-- C8: the de-randomized kinetic engine is a pure function of its parameters
and of the random streams; two runs with the same parameters and pointwise
equal streams (as produced by the same seed of the generator) return
identical results matrices and identical per-trajectory time and position
series. -/
theorem claim_C8_engine_deterministic (nt : ℕ) (tmax dt : ℚ)
    (alpha_matrix : List (List ℚ)) (beta : ℚ) (Lmax lenght origin : ℕ)
    (p : List ℚ) (e1 e2 : ℕ → ℕ → FTime) (u1 u2 : ℕ → ℕ → ℚ) (f1 f2 : ℕ → ℤ)
    (he : ∀ k n, e1 k n = e2 k n) (hu : ∀ k n, u1 k n = u2 k n)
    (hf : ∀ k, f1 k = f2 k) :
    gillespie_algorithm_one_step nt tmax dt alpha_matrix beta Lmax lenght origin
        p e1 u1 f1 =
      gillespie_algorithm_one_step nt tmax dt alpha_matrix beta Lmax lenght origin
        p e2 u2 f2 := by
  have h1 : e1 = e2 := funext fun k => funext fun n => he k n
  have h2 : u1 = u2 := funext fun k => funext fun n => hu k n
  have h3 : f1 = f2 := funext fun k => hf k
  rw [h1, h2, h3]

/-- C8 witness. -/
theorem claim_C8_witness :
    (∀ k : ℕ, (fun _ : ℕ => (0 : ℤ)) k = (fun _ : ℕ => (0 : ℤ)) k) ∧
      gillespie_algorithm_one_step 2 10 1 [[1, 1, 1], [1, 1, 1]] 0 3 3 1 [0, 1, 1]
          (fun _ _ => FTime.fin 1) (fun _ _ => (1 : ℚ) / 2) (fun _ => 0) =
        gillespie_algorithm_one_step 2 10 1 [[1, 1, 1], [1, 1, 1]] 0 3 3 1 [0, 1, 1]
          (fun _ _ => FTime.fin 1) (fun _ _ => (1 : ℚ) / 2) (fun _ => 0) :=
  ⟨fun _ => rfl,
    claim_C8_engine_deterministic 2 10 1 [[1, 1, 1], [1, 1, 1]] 0 3 3 1 [0, 1, 1]
      _ _ _ _ _ _ (fun _ _ => rfl) (fun _ _ => rfl) (fun _ => rfl)⟩

/-! ### Claim C9 -/

/-- C9: `folding` returns origin 0 immediately, for every landscape — the
placement rule is bypassed entirely, whatever the landscape holds at site 0 —
and a nonzero origin whose landscape value is neither 0 nor 1 is likewise
returned unchanged. -/
theorem claim_C9_folding (landscape : List ℚ) (r : ℤ) (o : ℕ) (v : ℚ) :
    folding landscape 0 r = some 0 ∧
      (o ≠ 0 → landscape[o]? = some v → v ≠ 1 → v ≠ 0 →
        folding landscape o r = some o) := by
  constructor
  · simp [folding]
  · intro ho hv h1 h0
    unfold folding
    rw [if_neg ho, hv]
    dsimp only
    rw [if_pos ⟨h1, h0⟩]
    rfl

/-- C9 witness: landscape `[5, 7]` (site values neither 0 nor 1). -/
theorem claim_C9_witness :
    (1 : ℕ) ≠ 0 ∧ folding [5, 7] 0 3 = some 0 ∧ folding [5, 7] 1 3 = some 1 :=
  ⟨by decide, (claim_C9_folding [5, 7] 3 1 7).1,
    (claim_C9_folding [5, 7] 3 1 7).2 (by decide) (by decide) (by decide)
      (by decide)⟩

/-! ### Claim C6 -/

/-- C6 counterexample: with `mu = theta = 1` (both positive) the Gamma shape
parameter is 1, the pdf at 0 equals `1/scale ≠ 0`, and the returned
probability at index 0 is `1 / (1 + e⁻¹) ≠ 0` — not "exactly zero". -/
theorem claim_C6_counterexample : proba_gamma 1 1 2 0 ≠ 0 := by
  have hpdf : ∀ j : ℕ, gamma_pdf ((1 : ℝ) ^ 2 / 1 ^ 2) (1 ^ 2 / 1) j =
      Real.exp (-(j : ℝ)) := by
    intro j
    unfold gamma_pdf
    norm_num [Real.Gamma_one, Real.one_rpow, Real.rpow_zero]
  unfold proba_gamma
  rw [Finset.sum_range_succ, Finset.sum_range_succ, Finset.sum_range_zero,
    hpdf 0, hpdf 1]
  have he0 : Real.exp (-((0 : ℕ) : ℝ)) = 1 := by norm_num
  rw [he0]
  apply ne_of_gt
  apply div_pos one_pos
  have he1 := Real.exp_pos (-((1 : ℕ) : ℝ))
  linarith

/-- C6 amended: for shape parameter `mu²/θ² > 1` (and positive mean and
spread) the entry at index 0 is exactly zero, and the array is normalized to
sum to 1 over the support whenever `Lmax ≥ 2`; in exact arithmetic the total
mass is then always positive, and the code contains no zero-mass guard — the
division is performed unconditionally. -/
theorem claim_C6_gamma_kernel (mu theta : ℝ) (Lmax : ℕ) (hmu : 0 < mu)
    (htheta : 0 < theta) (hshape : 1 < mu ^ 2 / theta ^ 2) (hL : 2 ≤ Lmax) :
    proba_gamma mu theta Lmax 0 = 0 ∧
      (∑ k ∈ Finset.range Lmax, proba_gamma mu theta Lmax k) = 1 := by
  have hscale : 0 < theta ^ 2 / mu := by positivity
  have hGamma : 0 < Real.Gamma (mu ^ 2 / theta ^ 2) :=
    Real.Gamma_pos_of_pos (by linarith)
  have hpow : 0 < (theta ^ 2 / mu) ^ (mu ^ 2 / theta ^ 2) :=
    Real.rpow_pos_of_pos hscale _
  have hnonneg : ∀ j : ℕ,
      0 ≤ gamma_pdf (mu ^ 2 / theta ^ 2) (theta ^ 2 / mu) j := by
    intro j
    unfold gamma_pdf
    apply div_nonneg
    · exact mul_nonneg (Real.rpow_nonneg (Nat.cast_nonneg j) _) (Real.exp_pos _).le
    · exact (mul_pos hGamma hpow).le
  have hpos1 : 0 < gamma_pdf (mu ^ 2 / theta ^ 2) (theta ^ 2 / mu) ((1 : ℕ) : ℝ) := by
    unfold gamma_pdf
    rw [Nat.cast_one, Real.one_rpow, one_mul]
    exact div_pos (Real.exp_pos _) (mul_pos hGamma hpow)
  have hS : 0 < ∑ j ∈ Finset.range Lmax,
      gamma_pdf (mu ^ 2 / theta ^ 2) (theta ^ 2 / mu) j := by
    refine Finset.sum_pos' (fun j _ => hnonneg j) ⟨1, Finset.mem_range.2 (by omega), hpos1⟩
  constructor
  · unfold proba_gamma gamma_pdf
    rw [Nat.cast_zero,
      Real.zero_rpow (ne_of_gt (by linarith : (0 : ℝ) < mu ^ 2 / theta ^ 2 - 1))]
    simp
  · unfold proba_gamma
    rw [← Finset.sum_div, div_self (ne_of_gt hS)]

/-- C6 witness for the amended theorem. -/
theorem claim_C6_witness :
    (0 : ℝ) < 2 ∧ (0 : ℝ) < 1 ∧ 1 < (2 : ℝ) ^ 2 / (1 : ℝ) ^ 2 ∧ 2 ≤ 2 ∧
      (proba_gamma 2 1 2 0 = 0 ∧
        (∑ k ∈ Finset.range 2, proba_gamma 2 1 2 k) = 1) :=
  ⟨by norm_num, by norm_num, by norm_num, le_refl 2,
    claim_C6_gamma_kernel 2 1 2 (by norm_num) (by norm_num) (by norm_num)
      (le_refl 2)⟩
